import Mathlib

/-!
Verification of the ghostwriter editing core against its specification.

The Rust sources are shallowly embedded: byte streams and buffer contents
become `List Nat` (each element one byte, or one Unicode scalar value where
noted), machine integers become `Nat` with explicit `% 2^w` at the points
where the code truncates, and file I/O becomes explicit `Except` values.
Every definition mirrors one function of the repository; the doc comment of
each definition names its source.
-/

namespace Ghostwriter

/-! ### Generic byte-string helpers

Big-endian encoding as used by `u64::to_be_bytes` / `u32::to_be_bytes` and
the corresponding `from_be_bytes` reads in `crates/core/src/wal.rs`.
-/

/-- Big-endian byte encoding: `beBytes k n` is the `k`-byte big-endian
representation of `n % 256^k`, mirroring `to_be_bytes` on a `k`-byte
unsigned integer. -/
def beBytes : Nat → Nat → List Nat
  | 0, _ => []
  | k + 1, n => beBytes k (n / 256) ++ [n % 256]

/-- Big-endian value of a byte string, mirroring `from_be_bytes`. -/
def beVal (l : List Nat) : Nat :=
  l.foldl (fun a b => a * 256 + b) 0

/-! ### CRC-32

`crc32fast::Hasher` computes the standard (IEEE, reflected) CRC-32 with
polynomial `0xEDB88320`, initial value `0xFFFFFFFF` and final xor
`0xFFFFFFFF`; `wal.rs` hashes `[op type || length || payload]` with it. -/

/-- One bit-step of the reflected CRC-32 computation. -/
def crc32Round (c : Nat) : Nat :=
  if c % 2 = 1 then (c / 2) ^^^ 0xEDB88320 else c / 2

/-- Fold one byte into a CRC-32 state (xor the byte, then 8 bit-steps). -/
def crc32Byte (c b : Nat) : Nat :=
  crc32Round^[8] (c ^^^ b)

/-- CRC-32 of a byte string, as computed by `crc32fast::Hasher`. -/
def crc32 (l : List Nat) : Nat :=
  (l.foldl crc32Byte 0xFFFFFFFF) ^^^ 0xFFFFFFFF

/-! ### Write-ahead log (`crates/core/src/wal.rs`)

A record on disk is `MAGIC "GWAL" || version 1 || doc_v:u64be ||
type:u8 || payload_len:u32be || payload || crc32be` where the CRC covers
`type || payload_len || payload`. -/

/-- `EditOp` from `wal.rs`: `Insert { idx: u64, bytes: Vec<u8> }` or
`Delete { range: Range<u64> }`. -/
inductive EditOp where
  | insert (idx : Nat) (bytes : List Nat)
  | delete (start stop : Nat)
deriving DecidableEq, Repr

/-- `EditRecord` from `wal.rs`: an edit operation with its document version. -/
structure EditRecord where
  doc_v : Nat
  op : EditOp
deriving DecidableEq, Repr

/-- The bytes `b"GWAL"`. -/
def walMagic : List Nat := [71, 87, 65, 76]

namespace Wal

/-- Payload serialization from `Wal::append`: insert is `idx:u64be || bytes`,
delete is `start:u64be || end:u64be`. -/
def encodePayload : EditOp → List Nat
  | .insert idx bytes => beBytes 8 idx ++ bytes
  | .delete s e => beBytes 8 s ++ beBytes 8 e

/-- Record type byte from `Wal::append` (`TYPE_INSERT = 1`, `TYPE_DELETE = 2`). -/
def opType : EditOp → Nat
  | .insert _ _ => 1
  | .delete _ _ => 2

/-- The `type_section` built by `Wal::append`:
`type:u8 || payload_len:u32be || payload` (the `as u32` cast truncates the
length modulo `2^32`, which `beBytes 4` reproduces). -/
def typeSection (r : EditRecord) : List Nat :=
  opType r.op :: beBytes 4 (encodePayload r.op).length ++ encodePayload r.op

/-- Full record bytes written by `Wal::append`:
`MAGIC || version || doc_v:u64be || type_section || crc:u32be`. -/
def encodeRecord (r : EditRecord) : List Nat :=
  walMagic ++ [1] ++ beBytes 8 r.doc_v ++ typeSection r ++
    beBytes 4 (crc32 (typeSection r))

/-- One `Wal::append` call on a WAL file holding `file`: the record bytes are
appended at the end (the file is opened in append mode and synced). -/
def append (file : List Nat) (r : EditRecord) : List Nat :=
  file ++ encodeRecord r

/-- A sequence of `Wal::append` calls. -/
def appendAll (file : List Nat) (rs : List EditRecord) : List Nat :=
  rs.foldl append file

/-- `read_exact` of `n` bytes from the remaining stream: succeeds with the
bytes and the rest exactly when `n` bytes are available. -/
def readN (n : Nat) (l : List Nat) : Option (List Nat × List Nat) :=
  if n ≤ l.length then some (l.take n, l.drop n) else none

/-- The record-parsing loop of `Wal::replay`, fuel-indexed (the fuel only
bounds the number of loop iterations; each iteration consumes at least 22
bytes, so `length + 1` fuel is never exhausted).  Mirrors `wal.rs` lines
99–154: a short read or a bad magic/version terminates the loop (`break`),
while a CRC mismatch, an unknown type byte, or an invalid payload length
skips the record (`continue`). -/
def replayAux : Nat → List Nat → List EditRecord
  | 0, _ => []
  | fuel + 1, l =>
    match readN 13 l with
    | none => []
    | some (header, r1) =>
      if header.take 4 = walMagic ∧ header.getD 4 0 = 1 then
        match readN 5 r1 with
        | none => []
        | some (tbuf, r2) =>
          let typ := tbuf.getD 0 0
          let len := beVal (tbuf.drop 1)
          match readN len r2 with
          | none => []
          | some (payload, r3) =>
            match readN 4 r3 with
            | none => []
            | some (crcBuf, r4) =>
              if beVal crcBuf = crc32 (tbuf ++ payload) then
                if typ = 1 then
                  if payload.length < 8 then replayAux fuel r4
                  else
                    { doc_v := beVal (header.drop 5),
                      op := .insert (beVal (payload.take 8)) (payload.drop 8) } ::
                      replayAux fuel r4
                else if typ = 2 then
                  if payload.length = 16 then
                    { doc_v := beVal (header.drop 5),
                      op := .delete (beVal (payload.take 8)) (beVal (payload.drop 8)) } ::
                      replayAux fuel r4
                  else replayAux fuel r4
                else replayAux fuel r4
              else replayAux fuel r4
      else []

/-- `Wal::replay` applied to the byte contents of an existing WAL file. -/
def replayBytes (l : List Nat) : List EditRecord :=
  replayAux (l.length + 1) l

/-- Outcome of `File::open` + read in the model: the file's bytes, a
`NotFound` error, or any other I/O error. -/
inductive FileRead where
  | found (bytes : List Nat)
  | notFound
  | ioFail
deriving DecidableEq, Repr

/-- `Wal::replay` including its `File::open` handling (`wal.rs` lines 94–98):
`NotFound` yields `Ok(vec![])`, any other open error is propagated, and an
opened file is parsed by the record loop (which never fails). -/
def replay : FileRead → Except Unit (List EditRecord)
  | .found bytes => .ok (replayBytes bytes)
  | .notFound => .ok []
  | .ioFail => .error ()

/-- Field ranges guaranteed by the Rust types in `wal.rs`: `u64` indices and
versions, a payload whose length fits the `u32` length field, and payload
bytes that are actual bytes (`Vec<u8>`). -/
def WfOp : EditOp → Prop
  | .insert idx bytes => idx < 2 ^ 64 ∧ bytes.length + 8 < 2 ^ 32 ∧ ∀ b ∈ bytes, b < 256
  | .delete s e => s < 2 ^ 64 ∧ e < 2 ^ 64

def WfRecord (r : EditRecord) : Prop :=
  r.doc_v < 2 ^ 64 ∧ WfOp r.op

instance (op : EditOp) : Decidable (WfOp op) := by
  cases op <;> (unfold WfOp; infer_instance)

instance (r : EditRecord) : Decidable (WfRecord r) := by
  unfold WfRecord; infer_instance

/-- An arbitrary on-disk record frame whose magic, version and length field
are consistent but whose type byte, payload and stored CRC are arbitrary:
`MAGIC || 1 || doc_v:u64be || typ || payload_len:u32be || payload || crc:u32be`. -/
def rawFrame (docv typ : Nat) (payload : List Nat) (c : Nat) : List Nat :=
  walMagic ++ [1] ++ beBytes 8 docv ++
    (typ :: beBytes 4 payload.length ++ payload) ++ beBytes 4 c

end Wal

/-- Byte-level semantics of `RopeBuffer::insert` (`crates/core/src/buffer.rs`):
splice `text` into the buffer at byte index `idx`.  The rope stores UTF-8
text; the buffer content is modelled as its byte sequence. -/
def byteInsert (buf : List Nat) (idx : Nat) (text : List Nat) : List Nat :=
  buf.take idx ++ text ++ buf.drop idx

/-- Byte-level semantics of `RopeBuffer::delete`: remove the bytes in
`[s, e)`. -/
def byteDelete (buf : List Nat) (s e : Nat) : List Nat :=
  buf.take s ++ buf.drop e

/-- Application of one replayed WAL operation to the buffer bytes, as done by
the replay loop of `tests/acceptance_pack1.rs` (`buf2.insert` for inserts,
`buf2.delete` for deletes). -/
def applyOp (text : List Nat) : EditOp → List Nat
  | .insert idx bytes => byteInsert text idx bytes
  | .delete s e => byteDelete text s e

/-- Application of a stream of replayed WAL records in order. -/
def applyAll (text : List Nat) (rs : List EditRecord) : List Nat :=
  rs.foldl (fun t r => applyOp t r.op) text

/-! ### Undo stack (`crates/core/src/undo.rs`)

The buffer is its byte sequence; `Edit` texts carry bytes, and the
coalescing condition compares byte lengths (`text.len()`). -/

/-- `Edit` from `undo.rs`: `Insert { idx, text }` or `Delete { idx, text }`
(for deletes, `text` is the removed text captured at delete time). -/
inductive Edit where
  | insert (idx : Nat) (text : List Nat)
  | delete (idx : Nat) (text : List Nat)
deriving DecidableEq, Repr

/-- `UndoStack` from `undo.rs`: the head of each list is the top of the
corresponding `Vec` (its `last`/`pop` end). -/
structure UndoStack where
  past : List Edit
  future : List Edit
deriving DecidableEq, Repr

namespace UndoStack

/-- `UndoStack::new`. -/
def new : UndoStack := ⟨[], []⟩

/-- `UndoStack::insert`: apply the insert to the buffer; if the top of `past`
is `Insert { idx0, text0 }` and the new index is `idx0 + text0.len()`, extend
that record in place, otherwise push a new `Insert` record; clear `future`
either way.  Returns the new stack and buffer. -/
def insert (st : UndoStack) (buf : List Nat) (idx : Nat) (text : List Nat) :
    UndoStack × List Nat :=
  let bufNew := byteInsert buf idx text
  match st.past with
  | Edit.insert lidx ltext :: rest =>
    if idx = lidx + ltext.length then
      (⟨Edit.insert lidx (ltext ++ text) :: rest, []⟩, bufNew)
    else
      (⟨Edit.insert idx text :: st.past, []⟩, bufNew)
  | _ => (⟨Edit.insert idx text :: st.past, []⟩, bufNew)

/-- `UndoStack::delete`: capture the removed bytes, delete from the buffer,
push a `Delete` record and clear `future`. -/
def delete (st : UndoStack) (buf : List Nat) (s e : Nat) :
    UndoStack × List Nat :=
  let removed := (buf.take e).drop s
  (⟨Edit.delete s removed :: st.past, []⟩, byteDelete buf s e)

/-- `UndoStack::undo`: pop `past`, invert the edit against the buffer, push
the edit onto `future`.  Returns the stack, the buffer, and whether an edit
was undone. -/
def undo (st : UndoStack) (buf : List Nat) : UndoStack × List Nat × Bool :=
  match st.past with
  | [] => (st, buf, false)
  | e :: rest =>
    let bufNew := match e with
      | .insert idx text => byteDelete buf idx (idx + text.length)
      | .delete idx text => byteInsert buf idx text
    (⟨rest, e :: st.future⟩, bufNew, true)

/-- `UndoStack::redo`: pop `future`, re-apply the edit, push onto `past`. -/
def redo (st : UndoStack) (buf : List Nat) : UndoStack × List Nat × Bool :=
  match st.future with
  | [] => (st, buf, false)
  | e :: rest =>
    let bufNew := match e with
      | .insert idx text => byteInsert buf idx text
      | .delete idx text => byteDelete buf idx (idx + text.length)
    (⟨st.past, rest⟩, bufNew, true)

/-- A run of `UndoStack::insert` calls at the growing caret: each call
inserts at the index just past the previously inserted text. -/
def insertRun (st : UndoStack) (buf : List Nat) (idx : Nat) :
    List (List Nat) → UndoStack × List Nat
  | [] => (st, buf)
  | c :: cs =>
    let (stNew, bufNew) := insert st buf idx c
    insertRun stNew bufNew (idx + c.length) cs

end UndoStack

/-! ### Session actor (`crates/server/src/session.rs`)

The session owns a buffer (modelled by its byte sequence), optional hex
bytes, a document version, and a selection; it reacts to commands from its
channel.  Note: the `Session` struct of `session.rs` holds no WAL; its
observable side effects are modelled as an explicit effect trace. -/

/-- `SessionCmd` from `session.rs`. -/
inductive SessionCmd where
  | insert (text : List Nat)
  | requestFrame
  | save
deriving DecidableEq, Repr

/-- Mutable state of `Session` relevant to command processing. -/
structure SessionState where
  buffer : List Nat
  hexBytes : Option (List Nat)
  docV : Nat
  selStart : Nat
  selEnd : Nat
deriving DecidableEq, Repr

/-- Observable side effects of one loop step of `Session::run`:
`scheduleSave` is a `self.debounce.call(..)` scheduling a debounced save,
`emitFrame` is an `emit_frame` on the frame channel, `saveNow` is an
immediate `save_to`, and `walAppend` would be a `Wal::append` (the session
holds no WAL, so no step produces it). -/
inductive SessionEffect where
  | scheduleSave
  | emitFrame
  | saveNow
  | walAppend (r : EditRecord)
deriving DecidableEq, Repr

/-- One iteration of the command loop in `Session::run` (`session.rs`): the
new state and the effects performed, in order.  `Insert` in hex mode is a
no-op; in editor mode it inserts at `selection.end`, moves the selection to
the empty range past the inserted text, bumps `doc_v`, schedules a debounced
save and emits a frame. -/
def sessionStep (s : SessionState) : SessionCmd → SessionState × List SessionEffect
  | .insert text =>
    match s.hexBytes with
    | none =>
      let pos := s.selEnd
      let bufNew := byteInsert s.buffer pos text
      let newPos := pos + text.length
      (⟨bufNew, s.hexBytes, s.docV + 1, newPos, newPos⟩,
        [.scheduleSave, .emitFrame])
    | some _ => (s, [])
  | .requestFrame => (s, [.emitFrame])
  | .save =>
    match s.hexBytes with
    | none => (s, [.saveNow])
    | some _ => (s, [])

/-! ### Acceptor (`crates/server/src/acceptor.rs`)

`run_tcp`/`run_uds` accept connections in a loop: if the single-client flag
is set, `handle_busy` replies `Error{Busy}` and closes; otherwise the flag is
set and `handle_connection` runs (Hello, optional Auth with argon2
verification, then the message loop), clearing the flag when it ends.  The
model records, per connection, the list of error envelopes sent to it; the
timing of the concurrent session task is abstracted into one oracle bit per
connection (whether a session is still active when the next one arrives). -/

/-- Error codes the acceptor can place in an `Error` envelope. -/
inductive ErrCode where
  | busy
  | unauthorized
  | rateLimit
deriving DecidableEq, Repr

/-- Per-connection inputs: whether the first message decodes as `Hello`,
whether (when auth is required) the next decodes as `Auth`, whether the
argon2 verification succeeds, and whether the spawned (or already running)
session is still active when the next connection is accepted. -/
structure ConnInput where
  helloOk : Bool
  authMsgOk : Bool
  authVerifies : Bool
  stillActiveAtNext : Bool
deriving DecidableEq, Repr

/-- Error envelopes sent by `handle_connection` (`acceptor.rs` lines 30–99):
a failed Hello or Auth decode closes silently; a failed argon2 verification
sends `Error{Unauthorized}`; otherwise no error envelope is sent. -/
def handleConnection (authRequired : Bool) (c : ConnInput) : List ErrCode :=
  if ¬ c.helloOk then []
  else if authRequired then
    if ¬ c.authMsgOk then []
    else if ¬ c.authVerifies then [.unauthorized]
    else []
  else []

/-- The accept loop of `run_tcp` (`acceptor.rs` lines 101–115): per accepted
connection, a set single-client flag yields `handle_busy` (one `Error{Busy}`
envelope); otherwise the flag is set and `handle_connection` runs.  Returns
the error envelopes sent to each connection, in order. -/
def acceptorRun (authRequired : Bool) : Bool → List ConnInput → List (List ErrCode)
  | _, [] => []
  | true, c :: rest => [.busy] :: acceptorRun authRequired c.stillActiveAtNext rest
  | false, c :: rest =>
    handleConnection authRequired c :: acceptorRun authRequired c.stillActiveAtNext rest

/-! ### UTF-8 decoding and the rope buffer (`crates/core/src/buffer.rs`)

`RopeBuffer::open` reads all bytes and decodes them with
`String::from_utf8` / `String::from_utf8_lossy`.  Text is modelled as the
list of Unicode scalar values; the two std decoders are modelled byte-for-
byte after Rust core's UTF-8 validation (`run_utf8_validation`), including
the "substitution of maximal subparts" policy of `from_utf8_lossy` (one
U+FFFD per rejected maximal subpart). -/

/-- Allowed second byte of a three-byte sequence, by lead byte (Rust core's
validation table: `E0: A0..BF`, `E1..EC: 80..BF`, `ED: 80..9F`,
`EE..EF: 80..BF`). -/
def utf8Snd3 (b0 b1 : Nat) : Prop :=
  (b0 = 0xE0 ∧ 0xA0 ≤ b1 ∧ b1 ≤ 0xBF) ∨
  (0xE1 ≤ b0 ∧ b0 ≤ 0xEC ∧ 0x80 ≤ b1 ∧ b1 ≤ 0xBF) ∨
  (b0 = 0xED ∧ 0x80 ≤ b1 ∧ b1 ≤ 0x9F) ∨
  (0xEE ≤ b0 ∧ b0 ≤ 0xEF ∧ 0x80 ≤ b1 ∧ b1 ≤ 0xBF)

/-- Allowed second byte of a four-byte sequence, by lead byte
(`F0: 90..BF`, `F1..F3: 80..BF`, `F4: 80..8F`). -/
def utf8Snd4 (b0 b1 : Nat) : Prop :=
  (b0 = 0xF0 ∧ 0x90 ≤ b1 ∧ b1 ≤ 0xBF) ∨
  (0xF1 ≤ b0 ∧ b0 ≤ 0xF3 ∧ 0x80 ≤ b1 ∧ b1 ≤ 0xBF) ∨
  (b0 = 0xF4 ∧ 0x80 ≤ b1 ∧ b1 ≤ 0x8F)

instance (b0 b1 : Nat) : Decidable (utf8Snd3 b0 b1) := by
  unfold utf8Snd3; infer_instance

instance (b0 b1 : Nat) : Decidable (utf8Snd4 b0 b1) := by
  unfold utf8Snd4; infer_instance

/-- One step of Rust core's UTF-8 validation/decoding
(`run_utf8_validation` / `next_code_point`): given the first byte and the
remaining bytes, return the decoded scalar value and the bytes after the
(1–4 byte) sequence, or `none` if no well-formed sequence starts here. -/
def utf8Step (b0 : Nat) (rest : List Nat) : Option (Nat × List Nat) :=
  if b0 < 0x80 then some (b0, rest)
  else if b0 < 0xC2 then none
  else if b0 < 0xE0 then
    match rest with
    | b1 :: rest1 =>
      if 0x80 ≤ b1 ∧ b1 ≤ 0xBF then
        some ((b0 - 0xC0) * 64 + (b1 - 0x80), rest1)
      else none
    | [] => none
  else if b0 < 0xF0 then
    match rest with
    | b1 :: b2 :: rest2 =>
      if utf8Snd3 b0 b1 ∧ 0x80 ≤ b2 ∧ b2 ≤ 0xBF then
        some (((b0 - 0xE0) * 64 + (b1 - 0x80)) * 64 + (b2 - 0x80), rest2)
      else none
    | _ => none
  else if b0 < 0xF5 then
    match rest with
    | b1 :: b2 :: b3 :: rest3 =>
      if utf8Snd4 b0 b1 ∧ (0x80 ≤ b2 ∧ b2 ≤ 0xBF) ∧ (0x80 ≤ b3 ∧ b3 ≤ 0xBF) then
        some ((((b0 - 0xF0) * 64 + (b1 - 0x80)) * 64 + (b2 - 0x80)) * 64 +
          (b3 - 0x80), rest3)
      else none
    | _ => none
  else none

/-- The loop of `String::from_utf8` validation, fuel-indexed (each step
consumes at least one byte, so fuel equal to the input length is never
exhausted). -/
def utf8StrictAux : Nat → List Nat → Option (List Nat)
  | 0, _ => some []
  | _ + 1, [] => some []
  | fuel + 1, b0 :: rest =>
    match utf8Step b0 rest with
    | some (c, rem) => (utf8StrictAux fuel rem).map (fun cs => c :: cs)
    | none => none

/-- `String::from_utf8`: strict UTF-8 decoding to scalar values, `none` on
any invalid byte sequence. -/
def utf8DecodeStrict (l : List Nat) : Option (List Nat) :=
  utf8StrictAux l.length l

/-- Resume point of `String::from_utf8_lossy` after rejecting the maximal
subpart of an ill-formed sequence starting at `b0`: the error length is one
byte plus however many leading continuation bytes were valid for the lead
(`error_len` in Rust core's `Utf8Error`). -/
def utf8LossySkip (b0 : Nat) (rest : List Nat) : List Nat :=
  if 0xE0 ≤ b0 ∧ b0 < 0xF0 then
    match rest with
    | b1 :: rest1 => if utf8Snd3 b0 b1 then rest1 else rest
    | [] => []
  else if 0xF0 ≤ b0 ∧ b0 < 0xF5 then
    match rest with
    | b1 :: rest1 =>
      if utf8Snd4 b0 b1 then
        match rest1 with
        | b2 :: rest2 =>
          if 0x80 ≤ b2 ∧ b2 ≤ 0xBF then rest2 else rest1
        | [] => []
      else rest
    | [] => []
  else rest

/-- The loop of `String::from_utf8_lossy`, fuel-indexed.  Each maximal
subpart of an ill-formed sequence is replaced by one U+FFFD and decoding
resumes at the first offending byte. -/
def utf8LossyAux : Nat → List Nat → List Nat
  | 0, _ => []
  | _ + 1, [] => []
  | fuel + 1, b0 :: rest =>
    match utf8Step b0 rest with
    | some (c, rem) => c :: utf8LossyAux fuel rem
    | none => 0xFFFD :: utf8LossyAux fuel (utf8LossySkip b0 rest)

/-- `String::from_utf8_lossy`. -/
def utf8DecodeLossy (l : List Nat) : List Nat :=
  utf8LossyAux l.length l

/-- UTF-8 encoding of one Unicode scalar value. -/
def utf8EncodeChar (n : Nat) : List Nat :=
  if n < 0x80 then [n]
  else if n < 0x800 then [0xC0 + n / 64, 0x80 + n % 64]
  else if n < 0x10000 then [0xE0 + n / 4096, 0x80 + n / 64 % 64, 0x80 + n % 64]
  else [0xF0 + n / 0x40000, 0x80 + n / 4096 % 64, 0x80 + n / 64 % 64, 0x80 + n % 64]

/-- UTF-8 encoding of a scalar-value string. -/
def utf8Encode (cs : List Nat) : List Nat :=
  (cs.map utf8EncodeChar).flatten

/-- `str::contains("\r\n")` on a scalar-value string. -/
def containsCrLf : List Nat → Bool
  | 13 :: 10 :: _ => true
  | _ :: rest => containsCrLf rest
  | [] => false

/-- `str::replace("\r\n", "\n")`: left-to-right, non-overlapping
replacement of each CR LF by LF. -/
def crlfReplace : List Nat → List Nat
  | 13 :: 10 :: rest => 10 :: crlfReplace rest
  | c :: rest => c :: crlfReplace rest
  | [] => []

/-- `Eol` from `buffer.rs`. -/
inductive Eol where
  | Lf
  | CrLf
deriving DecidableEq, Repr

/-- `RopeBuffer` from `buffer.rs`, reduced to the observable state the open
and save paths use: the stored text (scalar values), the invalid-UTF-8 flag
and the line-ending style. -/
structure RopeBuffer where
  text : List Nat
  hasInvalid : Bool
  eol : Eol
deriving DecidableEq, Repr

/-- `RopeBuffer::from_text`: wrap the text unchanged, `has_invalid = false`,
`eol = Lf`; no CRLF normalization is performed. -/
def RopeBuffer.fromText (s : List Nat) : RopeBuffer :=
  ⟨s, false, .Lf⟩

/-- The text `RopeBuffer::open` holds before EOL normalization: the strict
decode when the bytes are valid UTF-8, the lossy decode otherwise. -/
def decodedText (bytes : List Nat) : List Nat :=
  match utf8DecodeStrict bytes with
  | some s => s
  | none => utf8DecodeLossy bytes

/-- `RopeBuffer::open` (`buffer.rs` lines 30–50): decode (strict, falling
back to lossy with the invalid flag set), then if the text contains CR LF,
replace every CR LF by LF and set `eol = CrLf`, else keep the text and
`eol = Lf`. -/
def RopeBuffer.open (bytes : List Nat) : RopeBuffer :=
  let dec := match utf8DecodeStrict bytes with
    | some s => (s, false)
    | none => (utf8DecodeLossy bytes, true)
  if containsCrLf dec.1 then ⟨crlfReplace dec.1, dec.2, .CrLf⟩
  else ⟨dec.1, dec.2, .Lf⟩

namespace Proto

/-- `StyleSpan` from the proto crate. -/
structure StyleSpan where
  startCol : Nat
  endCol : Nat
  className : String
deriving DecidableEq, Repr

/-- `Line` from the proto crate. -/
structure Line where
  text : String
  spans : List StyleSpan
deriving DecidableEq, Repr

/-- `Cursor` from the proto crate. -/
structure Cursor where
  line : Nat
  col : Nat
deriving DecidableEq, Repr

/-- `Frame` from the proto crate (`u16`/`u64` fields as `Nat`). -/
structure Frame where
  id : String
  kind : String
  doc_v : Nat
  first_line : Nat
  cols : Nat
  rows : Nat
  lines : List Line
  cursors : List Cursor
  status_left : String
  status_right : String
deriving DecidableEq, Repr

end Proto

/-- One uppercase hexadecimal digit. -/
def hexDigit (n : Nat) : Char :=
  if n < 10 then Char.ofNat (48 + n) else Char.ofNat (55 + n)

/-- `format!("{:02X}", b)` for a byte `b < 256`. -/
def hexByteStr (b : Nat) : String :=
  String.mk [hexDigit (b / 16), hexDigit (b % 16)]

/-- The text of row `row` of the hex view (`compose_hex`, `hex.rs` lines
17–47): 16 bytes from offset `16*row` as two-digit uppercase hex, a single
space between values, an extra space after the eighth, two-space placeholders
for missing bytes, padding to 48 columns, then `" |"` and the ASCII gutter
(bytes in `[0x20, 0x7E]` literally, all others as `.`). -/
def hexLineText (bytes : List Nat) (row : Nat) : String :=
  let start := row * 16
  let stop := min (start + 16) bytes.length
  let hexPart := (List.range 16).foldl (fun acc i =>
    let acc2 := if start + i < stop then acc ++ hexByteStr (bytes.getD (start + i) 0)
      else acc ++ "  "
    let acc3 := if i != 15 then acc2 ++ " " else acc2
    if i == 7 then acc3 ++ " " else acc3) ""
  let hexPart2 := if hexPart.length < 48 then
    hexPart ++ String.mk (List.replicate (48 - hexPart.length) ' ') else hexPart
  let ascii := String.mk (((bytes.drop start).take (stop - start)).map
    (fun b => if 0x20 ≤ b ∧ b ≤ 0x7E then Char.ofNat b else '.'))
  hexPart2 ++ " |" ++ ascii

/-- `compose_hex` (`hex.rs` lines 5–66): a Frame of kind `"hex"` whose rows
run from `first_row` to `min(first_row + rows, ceil(len/16))`, with no
cursors and no style spans. -/
def composeHex (bytes : List Nat) (first_row cols rows docv : Nat)
    (sl sr : String) : Proto.Frame :=
  let totalRows := (bytes.length + 15) / 16
  let lines := (List.range' first_row (min (first_row + rows) totalRows - first_row)).map
    (fun row => Proto.Line.mk (hexLineText bytes row) [])
  ⟨"hex", "hex", docv, first_row, cols, rows, lines, [], sl, sr⟩

/-! ### Viewport composer (`crates/core/src/viewport.rs`)

`compose` works on the buffer's lines (trailing newlines stripped, as
`slice_lines` returns them); a line is modelled as its byte sequence, and
column values are byte offsets exactly as in the source (`line.len()`,
`byte_to_line_col`).  `line.chars()` is modelled by the UTF-8 decoder. -/

/-- `StyleSpan` as constructed by `viewport.rs` (row, start/end column and a
class string, one of `"sel"`, `"ws"`, `"err"`). -/
structure VSpan where
  row : Nat
  startCol : Nat
  endCol : Nat
  cls : String
deriving DecidableEq, Repr

/-- `Cursor` as constructed by `viewport.rs` (viewport-relative row/col). -/
structure VCursor where
  row : Nat
  col : Nat
deriving DecidableEq, Repr

/-- The `Frame` shape built by `viewport.rs::compose`. -/
structure VFrame where
  firstLine : Nat
  lines : List (List Nat)
  spans : List VSpan
  cursors : List VCursor
  status : String
deriving DecidableEq, Repr

/-- Total byte length of the buffer text: line bytes plus one newline
between consecutive lines (`ropey` stores LF separators). -/
def totalByteLen : List (List Nat) → Nat
  | [] => 0
  | [l] => l.length
  | l1 :: l2 :: rest => l1.length + 1 + totalByteLen (l2 :: rest)

/-- `RopeBuffer::byte_to_line_col` over the line list: the line whose span
(including its trailing newline) contains byte `b`, and the byte column
within it.  Callers keep `b` within the text, as `ropey` panics otherwise. -/
def byteToLineCol : List (List Nat) → Nat → Nat × Nat
  | [], _ => (0, 0)
  | [_], b => (0, b)
  | l1 :: l2 :: rest, b =>
    if b ≤ l1.length then (0, b)
    else ((byteToLineCol (l2 :: rest) (b - l1.length - 1)).1 + 1,
      (byteToLineCol (l2 :: rest) (b - l1.length - 1)).2)

/-- The horizontal slice of one line (`viewport.rs` lines 20–28):
`line[hscroll..min(hscroll+cols, len)]` when `hscroll < len`, else empty. -/
def sliceLine (cols hscroll : Nat) (line : List Nat) : List Nat :=
  if hscroll < line.length then
    (line.drop hscroll).take (min (hscroll + cols) line.length - hscroll)
  else []

/-- `trim_end_matches([' ', '\t'])` at byte level. -/
def dropTrailingWs (line : List Nat) : List Nat :=
  (line.reverse.dropWhile (fun b => b == 32 || b == 9)).reverse

/-- The `"ws"` and `"err"` spans of one visible line (`viewport.rs` lines
32–53): a whitespace-tail span when the line has trailing spaces or tabs,
then a one-column `"err"` span per U+FFFD character. -/
def lineSpans (row : Nat) (line : List Nat) : List VSpan :=
  (if (dropTrailingWs line).length < line.length then
    [⟨row, (dropTrailingWs line).length, line.length, "ws"⟩] else []) ++
  ((utf8DecodeLossy line).enum.filterMap (fun p =>
    if p.2 = 0xFFFD then some ⟨row, p.1, p.1 + 1, "err"⟩ else none))

/-- `compose` (`viewport.rs` lines 9–116). -/
def compose (bufLines : List (List Nat)) (firstLine rows cols hscroll : Nat)
    (cursors : List (Nat × Nat)) (selection : Option (Nat × Nat)) : VFrame :=
  let vis := ((bufLines.drop firstLine).take rows).map (sliceLine cols hscroll)
  let wsErr := (vis.enum.map (fun p => lineSpans p.1 p.2)).flatten
  let selSpans := match selection with
    | none => []
    | some (s, e) =>
      let sl := byteToLineCol bufLines s
      let el := byteToLineCol bufLines e
      (List.range' sl.1 (el.1 + 1 - sl.1)).filterMap (fun line =>
        if line < firstLine ∨ firstLine + rows ≤ line then none
        else
          let st := if line = sl.1 then sl.2 else 0
          let en := if line = el.1 then el.2 else ((bufLines.get? line).getD []).length
          if st < en then
            if 0 < en - hscroll ∧ st - hscroll < cols then
              some ⟨line - firstLine, min (st - hscroll) cols,
                min (en - hscroll) cols, "sel"⟩
            else none
          else none)
  let curs := cursors.filterMap (fun p =>
    if p.1 < firstLine ∨ firstLine + rows ≤ p.1 then none
    else if p.2 < hscroll ∨ hscroll + cols ≤ p.2 then none
    else some ⟨p.1 - firstLine, p.2 - hscroll⟩)
  let status := match cursors.head? with
    | some p => "Ln " ++ toString (p.1 + 1) ++ ", Col " ++ toString (p.2 + 1)
    | none => ""
  ⟨firstLine, vis, wsErr ++ selSpans, curs, status⟩

/-! ### Theorems -/

@[simp] theorem length_beBytes (k n : Nat) : (beBytes k n).length = k := by
  induction k generalizing n with
  | zero => rfl
  | succ k ih => simp [beBytes, ih]

theorem beBytes_lt (k n : Nat) : ∀ b ∈ beBytes k n, b < 256 := by
  induction k generalizing n with
  | zero => simp [beBytes]
  | succ k ih =>
    intro b hb
    simp only [beBytes, List.mem_append, List.mem_singleton] at hb
    rcases hb with h | h
    · exact ih _ _ h
    · subst h; exact Nat.mod_lt _ (by norm_num)

theorem beVal_beBytes (k n : Nat) (h : n < 256 ^ k) : beVal (beBytes k n) = n := by
  induction k generalizing n with
  | zero => simp [beBytes, beVal] at h ⊢; omega
  | succ k ih =>
    have hdiv : n / 256 < 256 ^ k := by
      rw [Nat.div_lt_iff_lt_mul (by norm_num)]
      calc n < 256 ^ (k + 1) := h
        _ = 256 ^ k * 256 := by ring
    have : beVal (beBytes k (n / 256)) = n / 256 := ih _ hdiv
    simp only [beBytes, beVal, List.foldl_append, List.foldl_cons, List.foldl_nil]
    simp only [beVal] at this
    rw [this]
    omega

theorem crc32Round_lt (c : Nat) (h : c < 2 ^ 32) : crc32Round c < 2 ^ 32 := by
  unfold crc32Round
  split
  · exact Nat.xor_lt_two_pow (by omega) (by norm_num)
  · omega

theorem crc32Round_iterate_lt (n x : Nat) (h : x < 2 ^ 32) :
    crc32Round^[n] x < 2 ^ 32 := by
  induction n generalizing x with
  | zero => simpa using h
  | succ n ih =>
    rw [Function.iterate_succ_apply]
    exact ih _ (crc32Round_lt _ h)

theorem crc32Byte_lt (c b : Nat) (hc : c < 2 ^ 32) (hb : b < 256) :
    crc32Byte c b < 2 ^ 32 := by
  exact crc32Round_iterate_lt _ _ (Nat.xor_lt_two_pow hc (by omega))

theorem crc32_foldl_lt (l : List Nat) :
    ∀ s, s < 2 ^ 32 → (∀ b ∈ l, b < 256) → l.foldl crc32Byte s < 2 ^ 32 := by
  induction l with
  | nil => intro s hs _; simpa using hs
  | cons a t ih =>
    intro s hs hl
    simp only [List.foldl_cons]
    exact ih _ (crc32Byte_lt _ _ hs (hl a (by simp))) (fun b hb => hl b (by simp [hb]))

theorem crc32_lt (l : List Nat) (h : ∀ b ∈ l, b < 256) : crc32 l < 2 ^ 32 := by
  unfold crc32
  exact Nat.xor_lt_two_pow (crc32_foldl_lt l _ (by norm_num) h) (by norm_num)

namespace Wal

theorem readN_some {n : Nat} {l : List Nat} (h : n ≤ l.length) :
    readN n l = some (l.take n, l.drop n) := by
  simp [readN, h]

theorem readN_none {n : Nat} {l : List Nat} (h : l.length < n) :
    readN n l = none := by
  simp [readN]; omega

theorem readN_some_inv {n : Nat} {l a r : List Nat}
    (h : readN n l = some (a, r)) : n ≤ l.length ∧ a = l.take n ∧ r = l.drop n := by
  by_cases hn : n ≤ l.length
  · simp [readN, hn] at h
    exact ⟨hn, h.1.symm, h.2.symm⟩
  · simp [readN, hn] at h

theorem replayAux_fuel (f1 : Nat) : ∀ (f2 : Nat) (l : List Nat),
    l.length < f1 → l.length < f2 → replayAux f1 l = replayAux f2 l := by
  induction f1 with
  | zero => intro f2 l h1 _; omega
  | succ g1 ih =>
    intro f2 l h1 h2
    match f2, h2 with
    | g2 + 1, h2 =>
    cases h13 : readN 13 l with
    | none => simp [replayAux, h13]
    | some p1 =>
      obtain ⟨header, r1⟩ := p1
      obtain ⟨hn13, -, hr1⟩ := readN_some_inv h13
      simp only [replayAux, h13]
      by_cases hmag : header.take 4 = walMagic ∧ header.getD 4 0 = 1
      · simp only [if_pos hmag]
        cases h5 : readN 5 r1 with
        | none => rfl
        | some p2 =>
          obtain ⟨tbuf, r2⟩ := p2
          obtain ⟨hn5, -, hr2⟩ := readN_some_inv h5
          simp only []
          cases hpl : readN (beVal (tbuf.drop 1)) r2 with
          | none => rfl
          | some p3 =>
            obtain ⟨payload, r3⟩ := p3
            obtain ⟨hnpl, hpay, hr3⟩ := readN_some_inv hpl
            simp only []
            cases h4 : readN 4 r3 with
            | none => rfl
            | some p4 =>
              obtain ⟨crcBuf, r4⟩ := p4
              obtain ⟨hn4, -, hr4⟩ := readN_some_inv h4
              have hlen : r4.length + 22 ≤ l.length := by
                subst hr4 hr3 hr2 hr1
                simp only [List.length_drop] at *
                omega
              have hrec : replayAux g1 r4 = replayAux g2 r4 :=
                ih g2 r4 (by omega) (by omega)
              simp only [hrec]
      · simp only [if_neg hmag]

theorem readN_exact {n : Nat} {l1 l2 : List Nat} (h : l1.length = n) :
    readN n (l1 ++ l2) = some (l1, l2) := by
  subst h
  simp [readN, List.take_left, List.drop_left]

theorem encodePayload_length_lt (op : EditOp) (h : WfOp op) :
    (encodePayload op).length < 2 ^ 32 := by
  cases op with
  | insert idx bytes => simp [encodePayload, WfOp] at h ⊢; omega
  | delete s e => simp [encodePayload, WfOp] at h ⊢

theorem encodePayload_bytes_lt (op : EditOp) (h : WfOp op) :
    ∀ b ∈ encodePayload op, b < 256 := by
  cases op with
  | insert idx bytes =>
    intro b hb
    simp only [encodePayload, List.mem_append] at hb
    rcases hb with hb | hb
    · exact beBytes_lt _ _ _ hb
    · exact h.2.2 b hb
  | delete s e =>
    intro b hb
    simp only [encodePayload, List.mem_append] at hb
    rcases hb with hb | hb <;> exact beBytes_lt _ _ _ hb

theorem typeSection_bytes_lt (r : EditRecord) (h : WfRecord r) :
    ∀ b ∈ typeSection r, b < 256 := by
  intro b hb
  simp only [typeSection, List.cons_append, List.mem_cons, List.mem_append] at hb
  rcases hb with hb | hb | hb
  · subst hb; cases r.op <;> simp [opType]
  · exact beBytes_lt _ _ _ hb
  · exact encodePayload_bytes_lt _ h.2 _ hb

/-- Replaying a stream that starts with one well-formed encoded record parses
that record and continues with the rest of the stream. -/
theorem replayBytes_encode_cons (r : EditRecord) (rest : List Nat)
    (hr : WfRecord r) :
    replayBytes (encodeRecord r ++ rest) = r :: replayBytes rest := by
  obtain ⟨docv, op⟩ := r
  have hdocv : docv < 2 ^ 64 := hr.1
  have hplen : (encodePayload op).length < 2 ^ 32 := encodePayload_length_lt _ hr.2
  have hcrc : crc32 (typeSection ⟨docv, op⟩) < 2 ^ 32 :=
    crc32_lt _ (typeSection_bytes_lt _ hr)
  have henc : encodeRecord ⟨docv, op⟩ ++ rest =
      (walMagic ++ [1] ++ beBytes 8 docv) ++
        ((opType op :: beBytes 4 (encodePayload op).length) ++
          (encodePayload op ++
            (beBytes 4 (crc32 (typeSection ⟨docv, op⟩)) ++ rest))) := by
    simp [encodeRecord, typeSection]
  have hfuel : ((encodeRecord ⟨docv, op⟩ ++ rest).length) > rest.length := by
    simp [encodeRecord, walMagic]
    omega
  have hA4 : (walMagic ++ [1] ++ beBytes 8 docv).take 4 = walMagic := by
    simp [walMagic]
  have hA5 : (walMagic ++ [1] ++ beBytes 8 docv).getD 4 0 = 1 := by
    simp [walMagic]
  have hdrop5 : (walMagic ++ [1] ++ beBytes 8 docv).drop 5 = beBytes 8 docv := by
    simp [walMagic]
  rw [replayBytes, replayBytes]
  rw [henc]
  rw [replayAux]
  simp only [readN_exact (show (walMagic ++ [1] ++ beBytes 8 docv).length = 13 by
    simp [walMagic])]
  rw [if_pos ⟨hA4, hA5⟩]
  simp only [readN_exact (show (opType op :: beBytes 4 (encodePayload op).length).length = 5 by
    simp)]
  simp only [List.getD_cons_zero, List.drop_succ_cons, List.drop_zero]
  rw [beVal_beBytes 4 _ hplen]
  simp only [readN_exact (rfl : (encodePayload op).length = (encodePayload op).length)]
  simp only [readN_exact
    (show (beBytes 4 (crc32 (typeSection ⟨docv, op⟩))).length = 4 by simp)]
  have hts : (opType op :: beBytes 4 (encodePayload op).length) ++ encodePayload op =
      typeSection ⟨docv, op⟩ := by
    simp [typeSection]
  rw [hts, beVal_beBytes 4 _ hcrc, if_pos rfl]
  have hfuel2 : rest.length <
      (encodeRecord ⟨docv, op⟩ ++ rest).length + 1 - 1 := by omega
  cases op with
  | insert idx bytes =>
    have h1 : opType (.insert idx bytes) = 1 := rfl
    rw [h1, if_pos rfl]
    have hlen8 : ¬ (encodePayload (EditOp.insert idx bytes)).length < 8 := by
      simp [encodePayload]
    rw [if_neg hlen8]
    have htake : (encodePayload (EditOp.insert idx bytes)).take 8 = beBytes 8 idx :=
      List.take_left' (by simp)
    have hdrop : (encodePayload (EditOp.insert idx bytes)).drop 8 = bytes :=
      List.drop_left' (by simp)
    rw [hdrop5, htake, hdrop, beVal_beBytes 8 _ hdocv,
        beVal_beBytes 8 _ (by exact_mod_cast hr.2.1)]
    congr 1
    exact replayAux_fuel _ _ _ (by simp; omega) (by omega)
  | delete s e =>
    have h2 : opType (.delete s e) = 2 := rfl
    rw [h2]
    rw [if_neg (by norm_num), if_pos rfl, if_pos (by simp [encodePayload])]
    have htake : (encodePayload (EditOp.delete s e)).take 8 = beBytes 8 s :=
      List.take_left' (by simp)
    have hdrop : (encodePayload (EditOp.delete s e)).drop 8 = beBytes 8 e :=
      List.drop_left' (by simp)
    rw [hdrop5, htake, hdrop, beVal_beBytes 8 _ hdocv,
        beVal_beBytes 8 _ hr.2.1, beVal_beBytes 8 _ hr.2.2]
    congr 1
    exact replayAux_fuel _ _ _ (by simp; omega) (by omega)

/-- Replaying many well-formed encoded records followed by arbitrary bytes
parses all of them in order. -/
theorem replayBytes_encodeAll (rs : List EditRecord) (t : List Nat)
    (h : ∀ r ∈ rs, WfRecord r) :
    replayBytes (appendAll [] rs ++ t) = rs ++ replayBytes t := by
  have key : ∀ (rs : List EditRecord) (file : List Nat),
      appendAll file rs = file ++ appendAll [] rs := by
    intro rs
    induction rs with
    | nil => intro file; simp [appendAll]
    | cons r tl ih =>
      intro file
      have h1 : appendAll file (r :: tl) = appendAll (file ++ encodeRecord r) tl := rfl
      have h2 : appendAll [] (r :: tl) = appendAll ([] ++ encodeRecord r) tl := rfl
      rw [h1, h2, ih (file ++ encodeRecord r), ih (([] : List Nat) ++ encodeRecord r)]
      simp
  induction rs with
  | nil => simp [appendAll]
  | cons r tl ih =>
    have hr : WfRecord r := h r (by simp)
    have htl : ∀ x ∈ tl, WfRecord x := fun x hx => h x (by simp [hx])
    have hstep : appendAll [] (r :: tl) = encodeRecord r ++ appendAll [] tl := by
      have h2 : appendAll [] (r :: tl) = appendAll ([] ++ encodeRecord r) tl := rfl
      rw [h2, key tl]
      simp
    rw [hstep, List.append_assoc, replayBytes_encode_cons r _ hr, ih htl]
    rfl

/-- Replaying a strict prefix of a single well-formed encoded record yields
nothing: the loop breaks at the first short read. -/
theorem replayBytes_take_encode (r : EditRecord) (m : Nat) (hr : WfRecord r)
    (hm : m < (encodeRecord r).length) :
    replayBytes ((encodeRecord r).take m) = [] := by
  have hplen : (encodePayload r.op).length < 2 ^ 32 := encodePayload_length_lt _ hr.2
  have henc : encodeRecord r =
      (walMagic ++ [1] ++ beBytes 8 r.doc_v) ++
        ((opType r.op :: beBytes 4 (encodePayload r.op).length) ++
          (encodePayload r.op ++ beBytes 4 (crc32 (typeSection r)))) := by
    simp [encodeRecord, typeSection]
  have hlenA : (walMagic ++ [1] ++ beBytes 8 r.doc_v).length = 13 := by simp [walMagic]
  have hlenEnc : (encodeRecord r).length = 22 + (encodePayload r.op).length := by
    rw [henc]; simp [walMagic]; omega
  have hA4 : (walMagic ++ [1] ++ beBytes 8 r.doc_v).take 4 = walMagic := by
    simp [walMagic]
  have hA5 : (walMagic ++ [1] ++ beBytes 8 r.doc_v).getD 4 0 = 1 := by
    simp [walMagic]
  by_cases h13 : m < 13
  · have hsh : ((encodeRecord r).take m).length < 13 := by
      simp [List.length_take]; omega
    rw [replayBytes, replayAux, readN_none hsh]
  · -- the 13-byte header is available and valid
    have ht : (encodeRecord r).take m =
        (walMagic ++ [1] ++ beBytes 8 r.doc_v) ++
          ((opType r.op :: beBytes 4 (encodePayload r.op).length) ++
            (encodePayload r.op ++ beBytes 4 (crc32 (typeSection r)))).take (m - 13) := by
      have h : ((walMagic ++ [1] ++ beBytes 8 r.doc_v) ++
          ((opType r.op :: beBytes 4 (encodePayload r.op).length) ++
            (encodePayload r.op ++ beBytes 4 (crc32 (typeSection r))))).take
            ((walMagic ++ [1] ++ beBytes 8 r.doc_v).length + (m - 13)) =
          (walMagic ++ [1] ++ beBytes 8 r.doc_v) ++
            ((opType r.op :: beBytes 4 (encodePayload r.op).length) ++
              (encodePayload r.op ++ beBytes 4 (crc32 (typeSection r)))).take (m - 13) :=
        List.take_append _
      rw [hlenA] at h
      rw [show (13 : Nat) + (m - 13) = m from by omega] at h
      rw [henc]
      exact h
    rw [replayBytes, ht, replayAux]
    simp only [readN_exact hlenA]
    rw [if_pos ⟨hA4, hA5⟩]
    by_cases h18 : m < 18
    · have hsh : (((opType r.op :: beBytes 4 (encodePayload r.op).length) ++
          (encodePayload r.op ++ beBytes 4 (crc32 (typeSection r)))).take (m - 13)).length < 5 := by
        simp [List.length_take]; omega
      rw [readN_none hsh]
    · -- the 5-byte type section header is available
      have hlenT : (opType r.op :: beBytes 4 (encodePayload r.op).length).length = 5 := by simp
      have ht2 : ((opType r.op :: beBytes 4 (encodePayload r.op).length) ++
          (encodePayload r.op ++ beBytes 4 (crc32 (typeSection r)))).take (m - 13) =
          (opType r.op :: beBytes 4 (encodePayload r.op).length) ++
            (encodePayload r.op ++ beBytes 4 (crc32 (typeSection r))).take (m - 18) := by
        have h : ((opType r.op :: beBytes 4 (encodePayload r.op).length) ++
            (encodePayload r.op ++ beBytes 4 (crc32 (typeSection r)))).take
            ((opType r.op :: beBytes 4 (encodePayload r.op).length).length + (m - 18)) =
            (opType r.op :: beBytes 4 (encodePayload r.op).length) ++
              (encodePayload r.op ++ beBytes 4 (crc32 (typeSection r))).take (m - 18) :=
          List.take_append _
        rw [hlenT] at h
        rw [show (5 : Nat) + (m - 18) = m - 13 from by omega] at h
        exact h
      rw [ht2]
      simp only [readN_exact hlenT]
      simp only [List.getD_cons_zero, List.drop_succ_cons, List.drop_zero]
      rw [beVal_beBytes 4 _ hplen]
      by_cases hpl : m - 18 < (encodePayload r.op).length
      · have hsh : ((encodePayload r.op ++
            beBytes 4 (crc32 (typeSection r))).take (m - 18)).length <
            (encodePayload r.op).length := by
          simp [List.length_take]; omega
        rw [readN_none hsh]
      · -- the payload is available; the CRC cannot be
        have ht3 : (encodePayload r.op ++
            beBytes 4 (crc32 (typeSection r))).take (m - 18) =
            encodePayload r.op ++
              (beBytes 4 (crc32 (typeSection r))).take (m - 18 - (encodePayload r.op).length) := by
          have h : (encodePayload r.op ++
              beBytes 4 (crc32 (typeSection r))).take
              ((encodePayload r.op).length + (m - 18 - (encodePayload r.op).length)) =
              encodePayload r.op ++
                (beBytes 4 (crc32 (typeSection r))).take
                  (m - 18 - (encodePayload r.op).length) :=
            List.take_append _
          rw [show (encodePayload r.op).length +
            (m - 18 - (encodePayload r.op).length) = m - 18 from by omega] at h
          exact h
        rw [ht3]
        simp only [readN_exact (rfl :
          (encodePayload r.op).length = (encodePayload r.op).length)]
        have hsh : ((beBytes 4 (crc32 (typeSection r))).take
            (m - 18 - (encodePayload r.op).length)).length < 4 := by
          simp [List.length_take]; omega
        rw [readN_none hsh]

/-- A frame whose stored CRC does not match, whose type byte is unknown, or
whose payload length is invalid for its type is skipped by the replay loop,
which continues parsing the bytes after it. -/
theorem replayBytes_rawFrame_skip (docv typ : Nat) (payload : List Nat)
    (c : Nat) (rest : List Nat)
    (hplen : payload.length < 2 ^ 32) (hc : c < 2 ^ 32)
    (hbad : c ≠ crc32 (typ :: beBytes 4 payload.length ++ payload) ∨
      (typ = 1 ∧ payload.length < 8) ∨
      (typ = 2 ∧ payload.length ≠ 16) ∨
      (typ ≠ 1 ∧ typ ≠ 2)) :
    replayBytes (rawFrame docv typ payload c ++ rest) = replayBytes rest := by
  have hA4 : (walMagic ++ [1] ++ beBytes 8 docv).take 4 = walMagic := by
    simp [walMagic]
  have hA5 : (walMagic ++ [1] ++ beBytes 8 docv).getD 4 0 = 1 := by
    simp [walMagic]
  have hlenA : (walMagic ++ [1] ++ beBytes 8 docv).length = 13 := by simp [walMagic]
  have hraw : rawFrame docv typ payload c ++ rest =
      (walMagic ++ [1] ++ beBytes 8 docv) ++
        ((typ :: beBytes 4 payload.length) ++
          (payload ++ (beBytes 4 c ++ rest))) := by
    simp [rawFrame]
  have hfl : rest.length < (rawFrame docv typ payload c ++ rest).length := by
    simp [rawFrame, walMagic]
    omega
  rw [replayBytes, replayBytes, hraw, replayAux]
  simp only [readN_exact hlenA]
  rw [if_pos ⟨hA4, hA5⟩]
  simp only [readN_exact (show (typ :: beBytes 4 payload.length).length = 5 by simp)]
  simp only [List.getD_cons_zero, List.drop_succ_cons, List.drop_zero]
  rw [beVal_beBytes 4 _ hplen]
  simp only [readN_exact (rfl : payload.length = payload.length)]
  simp only [readN_exact (show (beBytes 4 c).length = 4 by simp)]
  rw [beVal_beBytes 4 _ hc]
  have hskip : replayAux ((rawFrame docv typ payload c ++ rest).length) rest =
      replayAux (rest.length + 1) rest :=
    replayAux_fuel _ _ _ (by omega) (by omega)
  rw [hraw] at hskip
  by_cases hcrc : c = crc32 (typ :: beBytes 4 payload.length ++ payload)
  · rw [if_pos hcrc]
    rcases hbad with h | ⟨h1, h2⟩ | ⟨h1, h2⟩ | ⟨h1, h2⟩
    · exact absurd hcrc h
    · rw [if_pos h1, if_pos h2]
      exact hskip
    · subst h1
      rw [if_neg (by norm_num), if_pos rfl, if_neg h2]
      exact hskip
    · rw [if_neg h1, if_neg h2]
      exact hskip
  · rw [if_neg hcrc]
    exact hskip

end Wal

set_option maxRecDepth 100000 in
/-- C1 counterexample: a WAL byte stream made of one record frame whose stored
CRC (zero) is invalid, followed by one valid Insert record.  `Wal::replay`
does not terminate at the corrupt record: it skips it and parses the bytes
after it, returning the subsequent record instead of only the (here: zero)
records that precede the corrupt one. -/
theorem wal_replay_crc_corruption_cex :
    0 ≠ crc32 (1 :: beBytes 4 (beBytes 8 0 ++ [104, 105]).length ++
      (beBytes 8 0 ++ [104, 105])) ∧
    Wal.replayBytes (Wal.rawFrame 1 1 (beBytes 8 0 ++ [104, 105]) 0 ++
      Wal.encodeRecord ⟨2, .insert 0 [33]⟩) = [⟨2, .insert 0 [33]⟩] := by
  decide

/-- C1 (amended): a record whose stored CRC, type byte, or payload length is
invalid is skipped — its frame is consumed and replay continues parsing the
bytes that follow it — and the call still succeeds, returning the records
parsed from the rest of the stream.  (Only a bad magic or version byte, or a
truncated record, terminates replay.) -/
theorem wal_replay_corrupt_record_skipped (docv typ : Nat) (payload : List Nat)
    (c : Nat) (rest : List Nat)
    (hplen : payload.length < 2 ^ 32) (hc : c < 2 ^ 32)
    (hbad : c ≠ crc32 (typ :: beBytes 4 payload.length ++ payload) ∨
      (typ = 1 ∧ payload.length < 8) ∨
      (typ = 2 ∧ payload.length ≠ 16) ∨
      (typ ≠ 1 ∧ typ ≠ 2)) :
    Wal.replay (.found (Wal.rawFrame docv typ payload c ++ rest)) =
      .ok (Wal.replayBytes rest) := by
  simp [Wal.replay, Wal.replayBytes_rawFrame_skip _ _ _ _ _ hplen hc hbad]

set_option maxRecDepth 100000 in
/-- Witness for the amended C1 theorem at a concrete corrupt frame. -/
theorem wal_replay_corrupt_record_skipped_witness :
    Wal.replay (.found (Wal.rawFrame 1 1 (beBytes 8 0 ++ [104]) 0 ++ [])) =
      .ok [] :=
  wal_replay_corrupt_record_skipped 1 1 (beBytes 8 0 ++ [104]) 0 []
    (by decide) (by decide) (.inl (by decide))

/-- C2: appending records to a fresh WAL and replaying the resulting file
returns exactly those records, with the same operations in the same order
(hence applying the replayed stream to the pre-WAL text reproduces the
post-WAL text); and truncating any number of trailing bytes off the last
record still replays all preceding records intact. -/
theorem wal_append_replay_roundtrip (rs : List EditRecord)
    (h : ∀ r ∈ rs, Wal.WfRecord r) :
    Wal.replayBytes (Wal.appendAll [] rs) = rs ∧
    (∀ pre : List Nat,
      applyAll pre (Wal.replayBytes (Wal.appendAll [] rs)) = applyAll pre rs) ∧
    (∀ (init : List EditRecord) (last : EditRecord) (k : Nat),
      rs = init ++ [last] → 0 < k → k ≤ (Wal.encodeRecord last).length →
      Wal.replayBytes
        ((Wal.appendAll [] rs).take ((Wal.appendAll [] rs).length - k)) = init) := by
  have h1 : Wal.replayBytes (Wal.appendAll [] rs) = rs := by
    have h2 := Wal.replayBytes_encodeAll rs [] h
    have h3 : Wal.replayBytes ([] : List Nat) = [] := rfl
    simpa [h3] using h2
  refine ⟨h1, fun pre => by rw [h1], ?_⟩
  rintro init last k rfl hk hkle
  have hinit : ∀ r ∈ init, Wal.WfRecord r := fun r hr => h r (by simp [hr])
  have hlast : Wal.WfRecord last := h last (by simp)
  have hsplit : Wal.appendAll [] (init ++ [last]) =
      Wal.appendAll [] init ++ Wal.encodeRecord last := by
    simp [Wal.appendAll, List.foldl_append, Wal.append]
  rw [hsplit]
  have hlen : (Wal.appendAll [] init ++ Wal.encodeRecord last).length - k =
      (Wal.appendAll [] init).length + ((Wal.encodeRecord last).length - k) := by
    simp [List.length_append]
    omega
  rw [hlen, List.take_append, Wal.replayBytes_encodeAll init _ hinit,
      Wal.replayBytes_take_encode last _ hlast (by omega)]
  simp

/-- Witness for C2 at a concrete two-record WAL, including a truncation of
five trailing bytes off the last record. -/
theorem wal_append_replay_roundtrip_witness :
    Wal.replayBytes
      (Wal.appendAll [] [⟨1, .insert 0 [104]⟩, ⟨2, .delete 0 1⟩]) =
      [⟨1, .insert 0 [104]⟩, ⟨2, .delete 0 1⟩] ∧
    Wal.replayBytes
      ((Wal.appendAll [] [⟨1, .insert 0 [104]⟩, ⟨2, .delete 0 1⟩]).take
        ((Wal.appendAll [] [⟨1, .insert 0 [104]⟩, ⟨2, .delete 0 1⟩]).length - 5)) =
      [⟨1, .insert 0 [104]⟩] :=
  ⟨(wal_append_replay_roundtrip _ (by decide)).1,
    (wal_append_replay_roundtrip _ (by decide)).2.2
      [⟨1, .insert 0 [104]⟩] ⟨2, .delete 0 1⟩ 5 rfl (by decide) (by decide)⟩

/-- C10: `Wal::replay` of a path at which no file exists returns `Ok` with an
empty record list; only non-NotFound I/O errors from opening the file are
propagated; an existing file is parsed by the record loop, which never
fails. -/
theorem wal_replay_missing_file :
    Wal.replay .notFound = .ok [] ∧
    Wal.replay .ioFail = .error () ∧
    ∀ bytes, Wal.replay (.found bytes) = .ok (Wal.replayBytes bytes) :=
  ⟨rfl, rfl, fun _ => rfl⟩

theorem byteInsert_length (buf : List Nat) (idx : Nat) (text : List Nat)
    (h : idx ≤ buf.length) :
    (byteInsert buf idx text).length = buf.length + text.length := by
  simp [byteInsert, List.length_take, List.length_drop]
  omega

theorem byteInsert_chain (buf : List Nat) (idx : Nat) (acc c : List Nat)
    (h : idx ≤ buf.length) :
    byteInsert (byteInsert buf idx acc) (idx + acc.length) c =
      byteInsert buf idx (acc ++ c) := by
  have hlen : ((buf.take idx) ++ acc).length = idx + acc.length := by
    simp [List.length_take]
    omega
  unfold byteInsert
  rw [show buf.take idx ++ acc ++ buf.drop idx =
    (buf.take idx ++ acc) ++ buf.drop idx from by simp,
    List.take_left' hlen, List.drop_left' hlen]
  simp

theorem byteDelete_byteInsert (buf : List Nat) (idx : Nat) (text : List Nat)
    (h : idx ≤ buf.length) :
    byteDelete (byteInsert buf idx text) idx (idx + text.length) = buf := by
  have hlen1 : (buf.take idx).length = idx := by
    simp [List.length_take]; omega
  have hlen2 : ((buf.take idx) ++ text).length = idx + text.length := by
    simp [List.length_take]; omega
  unfold byteDelete byteInsert
  rw [show buf.take idx ++ text ++ buf.drop idx =
    (buf.take idx ++ text) ++ buf.drop idx from by simp,
    List.drop_left' hlen2,
    show (buf.take idx ++ text) ++ buf.drop idx =
      buf.take idx ++ (text ++ buf.drop idx) from by simp,
    List.take_left' hlen1, List.take_append_drop]

theorem insertRun_coalesce (cs : List (List Nat)) :
    ∀ (buf0 : List Nat) (idx0 : Nat) (acc : List Nat) (rest : List Edit),
    UndoStack.insertRun ⟨Edit.insert idx0 acc :: rest, []⟩
      (byteInsert buf0 idx0 acc) (idx0 + acc.length) cs =
      (⟨Edit.insert idx0 (acc ++ cs.flatten) :: rest, []⟩,
        byteInsert buf0 idx0 (acc ++ cs.flatten)) := by
  induction cs with
  | nil => intro buf0 idx0 acc rest; simp [UndoStack.insertRun]
  | cons c cs ih =>
    intro buf0 idx0 acc rest
    by_cases hidx : idx0 ≤ buf0.length
    · rw [UndoStack.insertRun]
      simp only [UndoStack.insert, eq_self_iff_true, if_true]
      rw [byteInsert_chain buf0 idx0 acc c hidx]
      have harith : idx0 + acc.length + c.length = idx0 + (acc ++ c).length := by
        simp [List.length_append]
        omega
      rw [harith, ih buf0 idx0 (acc ++ c) rest]
      simp
    · -- idx0 beyond the buffer: the splice identities still hold because
      -- `take idx0` is then the whole buffer and `drop idx0` is empty
      rw [UndoStack.insertRun]
      simp only [UndoStack.insert, eq_self_iff_true, if_true]
      have h1 : byteInsert buf0 idx0 acc = buf0 ++ acc := by
        unfold byteInsert
        rw [List.take_of_length_le (by omega), List.drop_of_length_le (by omega)]
        simp
      have h2 : byteInsert (buf0 ++ acc) (idx0 + acc.length) c = buf0 ++ acc ++ c := by
        unfold byteInsert
        rw [List.take_of_length_le (by simp; omega),
            List.drop_of_length_le (by simp; omega)]
        simp
      have h3 : byteInsert buf0 idx0 (acc ++ c) = buf0 ++ (acc ++ c) := by
        unfold byteInsert
        rw [List.take_of_length_le (by omega), List.drop_of_length_le (by omega)]
        simp
      have hchain : byteInsert (byteInsert buf0 idx0 acc) (idx0 + acc.length) c =
          byteInsert buf0 idx0 (acc ++ c) := by
        rw [h1, h2, h3]
        simp
      rw [hchain]
      have harith : idx0 + acc.length + c.length = idx0 + (acc ++ c).length := by
        simp [List.length_append]
        omega
      rw [harith, ih buf0 idx0 (acc ++ c) rest]
      simp

/-- C4: starting from a fresh `UndoStack`, any nonempty sequence of
`UndoStack::insert` calls in which each insert lands exactly at the previous
insert's index plus the byte length of the previously inserted text (the
growing caret) is coalesced into a single `past` entry, and one
`UndoStack::undo` restores the buffer to its state before the first insert
(clearing `past` and returning `true`). -/
theorem undo_coalesced_single_restore (buf0 : List Nat) (idx0 : Nat)
    (cs : List (List Nat)) (hidx : idx0 ≤ buf0.length) (hne : cs ≠ []) :
    (UndoStack.insertRun UndoStack.new buf0 idx0 cs).1.past =
      [Edit.insert idx0 cs.flatten] ∧
    (UndoStack.insertRun UndoStack.new buf0 idx0 cs).2 =
      byteInsert buf0 idx0 cs.flatten ∧
    UndoStack.undo (UndoStack.insertRun UndoStack.new buf0 idx0 cs).1
      (UndoStack.insertRun UndoStack.new buf0 idx0 cs).2 =
      (⟨[], [Edit.insert idx0 cs.flatten]⟩, buf0, true) := by
  match cs, hne with
  | c :: cs, _ =>
  have hrun : UndoStack.insertRun UndoStack.new buf0 idx0 (c :: cs) =
      (⟨[Edit.insert idx0 (c ++ cs.flatten)], []⟩,
        byteInsert buf0 idx0 (c ++ cs.flatten)) := by
    rw [UndoStack.insertRun]
    simp only [UndoStack.new, UndoStack.insert]
    exact insertRun_coalesce cs buf0 idx0 c []
  rw [hrun]
  refine ⟨by simp, by simp, ?_⟩
  rw [UndoStack.undo]
  simp only []
  rw [byteDelete_byteInsert buf0 idx0 (c ++ cs.flatten) hidx]
  simp

/-- Witness for C4: three single-character inserts `"h"`, `"i"`, `"!"` from
the empty buffer coalesce into one record, and one undo restores `""`. -/
theorem undo_coalesced_single_restore_witness :
    (UndoStack.insertRun UndoStack.new [] 0 [[104], [105], [33]]).1.past =
      [Edit.insert 0 [104, 105, 33]] ∧
    UndoStack.undo (UndoStack.insertRun UndoStack.new [] 0 [[104], [105], [33]]).1
      (UndoStack.insertRun UndoStack.new [] 0 [[104], [105], [33]]).2 =
      (⟨[], [Edit.insert 0 [104, 105, 33]]⟩, [], true) := by
  have h := undo_coalesced_single_restore [] 0 [[104], [105], [33]]
    (by decide) (by decide)
  exact ⟨h.1, h.2.2⟩

/-- C3 counterexample: in editor mode (`hex_bytes = None`), processing
`Insert` performs no `Wal::append` — the `Session` struct of `session.rs`
owns no WAL at all — contradicting the claim that an Insert WAL record is
appended.  Shown at the concrete initial session on inserting `"a"`. -/
theorem session_insert_no_wal_cex :
    ¬ ∃ r : EditRecord, SessionEffect.walAppend r ∈
      (sessionStep ⟨[], none, 0, 0, 0⟩ (.insert [97])).2 := by
  rintro ⟨r, hr⟩
  simp [sessionStep] at hr

/-- C3 (amended): in editor mode, `Insert { text }` inserts the text into the
buffer at `selection.end`, makes the selection the empty range at
`end + len(text)`, increments `doc_v` by exactly one, schedules a debounced
save and emits a frame; no WAL record is appended, because the session owns
no WAL. -/
theorem session_insert_editor_mode (s : SessionState) (text : List Nat)
    (hhex : s.hexBytes = none) :
    (sessionStep s (.insert text)).1.buffer = byteInsert s.buffer s.selEnd text ∧
    (sessionStep s (.insert text)).1.selStart = s.selEnd + text.length ∧
    (sessionStep s (.insert text)).1.selEnd = s.selEnd + text.length ∧
    (sessionStep s (.insert text)).1.docV = s.docV + 1 ∧
    (sessionStep s (.insert text)).2 = [.scheduleSave, .emitFrame] ∧
    ∀ r : EditRecord, SessionEffect.walAppend r ∉ (sessionStep s (.insert text)).2 := by
  simp [sessionStep, hhex]

/-- Witness for C3 at the empty initial session inserting `"hi"`. -/
theorem session_insert_editor_mode_witness :
    (sessionStep ⟨[], none, 0, 0, 0⟩ (.insert [104, 105])).1.buffer = [104, 105] ∧
    (sessionStep ⟨[], none, 0, 0, 0⟩ (.insert [104, 105])).1.docV = 1 ∧
    (sessionStep ⟨[], none, 0, 0, 0⟩ (.insert [104, 105])).2 =
      [.scheduleSave, .emitFrame] :=
  ⟨((session_insert_editor_mode ⟨[], none, 0, 0, 0⟩ [104, 105] rfl).1).trans
      (by decide),
    (session_insert_editor_mode ⟨[], none, 0, 0, 0⟩ [104, 105] rfl).2.2.2.1,
    (session_insert_editor_mode ⟨[], none, 0, 0, 0⟩ [104, 105] rfl).2.2.2.2.1⟩

/-- C6 (code divergence): the acceptor has no rate limiter.  Every error
envelope it ever sends carries code `Busy` or `Unauthorized` — never
`RateLimit` — and in the scenario of the repo's own
`ws_acceptor.rs::rate_limits_connections` test (four quick connections, each
closed before the next), the fourth connection receives no error envelope at
all, where the claim (and the test) expect `Error{RateLimit}`. -/
theorem acceptor_never_rate_limits :
    (∀ (auth active : Bool) (conns : List ConnInput),
      ∀ e ∈ (acceptorRun auth active conns).flatten,
        e = ErrCode.busy ∨ e = ErrCode.unauthorized) ∧
    acceptorRun false false
      [⟨true, true, true, false⟩, ⟨true, true, true, false⟩,
        ⟨true, true, true, false⟩, ⟨true, true, true, false⟩] =
      [[], [], [], []] := by
  constructor
  · intro auth active conns
    induction conns generalizing active with
    | nil => intro e he; cases active <;> simp [acceptorRun] at he
    | cons c rest ih =>
      intro e he
      cases active with
      | true =>
        simp only [acceptorRun, List.flatten_cons, List.mem_append] at he
        rcases he with he | he
        · simp at he; subst he; exact Or.inl rfl
        · exact ih c.stillActiveAtNext e he
      | false =>
        simp only [acceptorRun, List.flatten_cons, List.mem_append] at he
        rcases he with he | he
        · unfold handleConnection at he
          split at he
          · simp at he
          · split at he
            · split at he
              · simp at he
              · split at he
                · simp at he; subst he; exact Or.inr rfl
                · simp at he
            · simp at he
        · exact ih c.stillActiveAtNext e he
  · decide

/-- Witness for C6: with the flag already set, the one connection receives
exactly `Error{Busy}`, whose code the theorem shows is never `RateLimit`. -/
theorem acceptor_never_rate_limits_witness :
    ErrCode.busy = ErrCode.busy ∨ ErrCode.busy = ErrCode.unauthorized :=
  (acceptor_never_rate_limits).1 false true [⟨true, true, true, false⟩]
    ErrCode.busy (by decide)

theorem utf8Encode_nil : utf8Encode [] = [] := rfl

theorem utf8Encode_cons (c : Nat) (cs : List Nat) :
    utf8Encode (c :: cs) = utf8EncodeChar c ++ utf8Encode cs := by
  simp [utf8Encode]

theorem utf8EncodeChar_one (b0 : Nat) (h : b0 < 0x80) :
    utf8EncodeChar b0 = [b0] := by
  simp [utf8EncodeChar, h]

theorem utf8EncodeChar_two (b0 b1 : Nat) (h0 : 0xC2 ≤ b0) (h1 : b0 < 0xE0)
    (h2 : 0x80 ≤ b1) (h3 : b1 ≤ 0xBF) :
    utf8EncodeChar ((b0 - 0xC0) * 64 + (b1 - 0x80)) = [b0, b1] := by
  unfold utf8EncodeChar
  rw [if_neg (by omega), if_pos (by omega)]
  simp only [List.cons.injEq, and_true]
  omega

theorem utf8EncodeChar_three (b0 b1 b2 : Nat) (hs : utf8Snd3 b0 b1)
    (h2 : 0x80 ≤ b2) (h3 : b2 ≤ 0xBF) :
    utf8EncodeChar (((b0 - 0xE0) * 64 + (b1 - 0x80)) * 64 + (b2 - 0x80)) =
      [b0, b1, b2] := by
  unfold utf8Snd3 at hs
  unfold utf8EncodeChar
  rw [if_neg (by omega), if_neg (by omega), if_pos (by omega)]
  simp only [List.cons.injEq, and_true]
  omega

theorem utf8EncodeChar_four (b0 b1 b2 b3 : Nat) (hs : utf8Snd4 b0 b1)
    (h2 : 0x80 ≤ b2) (h3 : b2 ≤ 0xBF) (h4 : 0x80 ≤ b3) (h5 : b3 ≤ 0xBF) :
    utf8EncodeChar ((((b0 - 0xF0) * 64 + (b1 - 0x80)) * 64 + (b2 - 0x80)) * 64 +
      (b3 - 0x80)) = [b0, b1, b2, b3] := by
  unfold utf8Snd4 at hs
  unfold utf8EncodeChar
  rw [if_neg (by omega), if_neg (by omega), if_neg (by omega)]
  simp only [List.cons.injEq, and_true]
  omega

theorem utf8Step_some (b0 : Nat) (rest : List Nat) (c : Nat) (rem : List Nat)
    (h : utf8Step b0 rest = some (c, rem)) :
    utf8EncodeChar c ++ rem = b0 :: rest ∧ rem.length ≤ rest.length := by
  unfold utf8Step at h
  by_cases h80 : b0 < 0x80
  · rw [if_pos h80] at h
    simp only [Option.some.injEq, Prod.mk.injEq] at h
    obtain ⟨rfl, rfl⟩ := h
    simp [utf8EncodeChar_one b0 h80]
  · rw [if_neg h80] at h
    by_cases hC2 : b0 < 0xC2
    · rw [if_pos hC2] at h; exact absurd h (by simp)
    · rw [if_neg hC2] at h
      by_cases hE0 : b0 < 0xE0
      · rw [if_pos hE0] at h
        match rest with
        | [] => exact absurd h (by simp)
        | b1 :: rest1 =>
          simp only [] at h
          by_cases hb1 : 0x80 ≤ b1 ∧ b1 ≤ 0xBF
          · rw [if_pos hb1] at h
            simp only [Option.some.injEq, Prod.mk.injEq] at h
            obtain ⟨rfl, rfl⟩ := h
            rw [utf8EncodeChar_two b0 b1 (by omega) hE0 hb1.1 hb1.2]
            simp
          · rw [if_neg hb1] at h; exact absurd h (by simp)
      · rw [if_neg hE0] at h
        by_cases hF0 : b0 < 0xF0
        · rw [if_pos hF0] at h
          match rest with
          | [] => exact absurd h (by simp)
          | [b1] => exact absurd h (by simp)
          | b1 :: b2 :: rest2 =>
            simp only [] at h
            by_cases hcond : utf8Snd3 b0 b1 ∧ 0x80 ≤ b2 ∧ b2 ≤ 0xBF
            · rw [if_pos hcond] at h
              simp only [Option.some.injEq, Prod.mk.injEq] at h
              obtain ⟨rfl, rfl⟩ := h
              rw [utf8EncodeChar_three b0 b1 b2 hcond.1 hcond.2.1 hcond.2.2]
              simp
              omega
            · rw [if_neg hcond] at h; exact absurd h (by simp)
        · rw [if_neg hF0] at h
          by_cases hF5 : b0 < 0xF5
          · rw [if_pos hF5] at h
            match rest with
            | [] => exact absurd h (by simp)
            | [b1] => exact absurd h (by simp)
            | [b1, b2] => exact absurd h (by simp)
            | b1 :: b2 :: b3 :: rest3 =>
              simp only [] at h
              by_cases hcond : utf8Snd4 b0 b1 ∧ (0x80 ≤ b2 ∧ b2 ≤ 0xBF) ∧
                  (0x80 ≤ b3 ∧ b3 ≤ 0xBF)
              · rw [if_pos hcond] at h
                simp only [Option.some.injEq, Prod.mk.injEq] at h
                obtain ⟨rfl, rfl⟩ := h
                rw [utf8EncodeChar_four b0 b1 b2 b3 hcond.1 hcond.2.1.1
                  hcond.2.1.2 hcond.2.2.1 hcond.2.2.2]
                simp
                omega
              · rw [if_neg hcond] at h; exact absurd h (by simp)
          · rw [if_neg hF5] at h; exact absurd h (by simp)

theorem utf8LossySkip_length (b0 : Nat) (rest : List Nat) :
    (utf8LossySkip b0 rest).length ≤ rest.length := by
  unfold utf8LossySkip
  split
  · match rest with
    | [] => simp
    | b1 :: rest1 =>
      simp only []
      split <;> simp
  · split
    · match rest with
      | [] => simp
      | b1 :: rest1 =>
        simp only []
        split
        · match rest1 with
          | [] => simp
          | b2 :: rest2 =>
            simp only []
            split <;> (simp <;> try omega)
        · simp
    · simp

theorem utf8Encode_strictAux :
    ∀ (fuel : Nat) (l : List Nat), l.length ≤ fuel →
      ∀ cs, utf8StrictAux fuel l = some cs → utf8Encode cs = l := by
  intro fuel
  induction fuel with
  | zero =>
    intro l hl cs hdec
    have : l = [] := List.eq_nil_of_length_eq_zero (by omega)
    subst this
    simp only [utf8StrictAux, Option.some.injEq] at hdec
    subst hdec
    rfl
  | succ n ih =>
    intro l hl cs hdec
    match l with
    | [] =>
      simp only [utf8StrictAux, Option.some.injEq] at hdec
      subst hdec
      rfl
    | b0 :: rest =>
      simp only [utf8StrictAux] at hdec
      cases hstep : utf8Step b0 rest with
      | none => rw [hstep] at hdec; exact absurd hdec (by simp)
      | some p =>
        obtain ⟨c, rem⟩ := p
        rw [hstep] at hdec
        simp only [] at hdec
        obtain ⟨cs0, hcs0, rfl⟩ := Option.map_eq_some'.mp hdec
        obtain ⟨henc, hlen⟩ := utf8Step_some b0 rest c rem hstep
        rw [utf8Encode_cons, ih rem (by simp at hl; omega) cs0 hcs0, henc]

/-- If the bytes are valid UTF-8, re-encoding the decoded text yields exactly
the original bytes: the stored text "equals" the file's bytes. -/
theorem utf8Encode_decodeStrict (l cs : List Nat)
    (h : utf8DecodeStrict l = some cs) : utf8Encode cs = l :=
  utf8Encode_strictAux l.length l le_rfl cs h

theorem fffd_mem_lossyAux :
    ∀ (fuel : Nat) (l : List Nat), l.length ≤ fuel →
      utf8StrictAux fuel l = none → 0xFFFD ∈ utf8LossyAux fuel l := by
  intro fuel
  induction fuel with
  | zero =>
    intro l hl hdec
    simp [utf8StrictAux] at hdec
  | succ n ih =>
    intro l hl hdec
    match l with
    | [] => simp [utf8StrictAux] at hdec
    | b0 :: rest =>
      simp only [utf8StrictAux] at hdec
      simp only [utf8LossyAux]
      cases hstep : utf8Step b0 rest with
      | none => simp
      | some p =>
        obtain ⟨c, rem⟩ := p
        rw [hstep] at hdec
        rw [Option.map_eq_none'] at hdec
        have hlen := (utf8Step_some b0 rest c rem hstep).2
        exact List.mem_cons_of_mem _ (ih rem (by simp at hl; omega) hdec)

/-- If the bytes are not valid UTF-8, the lossy decode contains at least one
U+FFFD replacement character. -/
theorem fffd_mem_lossy (l : List Nat) (h : utf8DecodeStrict l = none) :
    0xFFFD ∈ utf8DecodeLossy l :=
  fffd_mem_lossyAux l.length l le_rfl h

theorem lossyAux_length_le :
    ∀ (fuel : Nat) (l : List Nat), l.length ≤ fuel →
      (utf8LossyAux fuel l).length ≤ l.length := by
  intro fuel
  induction fuel with
  | zero =>
    intro l hl
    simp [utf8LossyAux]
  | succ n ih =>
    intro l hl
    match l with
    | [] => simp [utf8LossyAux]
    | b0 :: rest =>
      simp only [utf8LossyAux]
      cases hstep : utf8Step b0 rest with
      | none =>
        simp only [List.length_cons]
        have h1 := utf8LossySkip_length b0 rest
        have h2 := ih (utf8LossySkip b0 rest) (by simp at hl; omega)
        simp at hl ⊢
        omega
      | some p =>
        obtain ⟨c, rem⟩ := p
        simp only [List.length_cons]
        have hlen := (utf8Step_some b0 rest c rem hstep).2
        have h2 := ih rem (by simp at hl; omega)
        simp at hl ⊢
        omega

/-- The lossy decode never has more scalar values than input bytes (each
decoded character or replacement consumes at least one byte). -/
theorem utf8DecodeLossy_length_le (l : List Nat) :
    (utf8DecodeLossy l).length ≤ l.length :=
  lossyAux_length_le l.length l le_rfl

/-- C5: `RopeBuffer::open` decodes valid UTF-8 exactly (re-encoding the
stored pre-normalization text gives back the file's bytes) with
`has_invalid = false`; invalid UTF-8 is decoded lossily with U+FFFD
substitution and `has_invalid = true`; and if the decoded text contains
CR LF, every CR LF is replaced by LF and `eol() = CrLf`, otherwise the text
is stored unchanged and `eol() = Lf`. -/
theorem rope_buffer_open_spec (bytes : List Nat) :
    ((∃ cs, utf8DecodeStrict bytes = some cs) →
      (RopeBuffer.open bytes).hasInvalid = false ∧
      utf8Encode (decodedText bytes) = bytes) ∧
    (utf8DecodeStrict bytes = none →
      (RopeBuffer.open bytes).hasInvalid = true ∧
      decodedText bytes = utf8DecodeLossy bytes ∧
      0xFFFD ∈ decodedText bytes) ∧
    (containsCrLf (decodedText bytes) = true →
      (RopeBuffer.open bytes).text = crlfReplace (decodedText bytes) ∧
      (RopeBuffer.open bytes).eol = Eol.CrLf) ∧
    (containsCrLf (decodedText bytes) = false →
      (RopeBuffer.open bytes).text = decodedText bytes ∧
      (RopeBuffer.open bytes).eol = Eol.Lf) := by
  refine ⟨?_, ?_, ?_, ?_⟩
  · rintro ⟨cs, hcs⟩
    constructor
    · simp only [RopeBuffer.open, hcs]
      split <;> rfl
    · have hdt : decodedText bytes = cs := by rw [decodedText, hcs]
      rw [hdt]
      exact utf8Encode_decodeStrict bytes cs hcs
  · intro hnone
    refine ⟨?_, ?_, ?_⟩
    · simp only [RopeBuffer.open, hnone]
      split <;> rfl
    · rw [decodedText, hnone]
    · rw [decodedText, hnone]
      exact fffd_mem_lossy bytes hnone
  · intro hcr
    cases hstrict : utf8DecodeStrict bytes with
    | some cs =>
      have hdt : decodedText bytes = cs := by rw [decodedText, hstrict]
      rw [hdt] at hcr ⊢
      simp only [RopeBuffer.open, hstrict]
      rw [if_pos hcr]
      exact ⟨rfl, rfl⟩
    | none =>
      have hdt : decodedText bytes = utf8DecodeLossy bytes := by
        rw [decodedText, hstrict]
      rw [hdt] at hcr ⊢
      simp only [RopeBuffer.open, hstrict]
      rw [if_pos hcr]
      exact ⟨rfl, rfl⟩
  · intro hcr
    cases hstrict : utf8DecodeStrict bytes with
    | some cs =>
      have hdt : decodedText bytes = cs := by rw [decodedText, hstrict]
      rw [hdt] at hcr ⊢
      simp only [RopeBuffer.open, hstrict]
      rw [if_neg (by simp [hcr])]
      exact ⟨rfl, rfl⟩
    | none =>
      have hdt : decodedText bytes = utf8DecodeLossy bytes := by
        rw [decodedText, hstrict]
      rw [hdt] at hcr ⊢
      simp only [RopeBuffer.open, hstrict]
      rw [if_neg (by simp [hcr])]
      exact ⟨rfl, rfl⟩

/-- Witness for C5: opening the valid bytes `"h\r\ni"` yields CRLF
normalization with `eol = CrLf`; opening the invalid byte `FF` yields the
lossy text `[U+FFFD]` with `has_invalid = true`. -/
theorem rope_buffer_open_spec_witness :
    (RopeBuffer.open [104, 13, 10, 105]).hasInvalid = false ∧
    (RopeBuffer.open [104, 13, 10, 105]).text =
      crlfReplace (decodedText [104, 13, 10, 105]) ∧
    (RopeBuffer.open [104, 13, 10, 105]).eol = Eol.CrLf ∧
    (RopeBuffer.open [255]).hasInvalid = true ∧
    0xFFFD ∈ decodedText [255] :=
  ⟨((rope_buffer_open_spec [104, 13, 10, 105]).1 ⟨[104, 13, 10, 105], by decide⟩).1,
    ((rope_buffer_open_spec [104, 13, 10, 105]).2.2.1 (by decide)).1,
    ((rope_buffer_open_spec [104, 13, 10, 105]).2.2.1 (by decide)).2,
    ((rope_buffer_open_spec [255]).2.1 (by decide)).1,
    ((rope_buffer_open_spec [255]).2.1 (by decide)).2.2⟩

/-- C9: `RopeBuffer::from_text` stores the text unchanged with
`has_invalid = false` and `eol = Lf`: unlike `open`, it performs no
CRLF-to-LF normalization, so CR characters remain in the stored text (as the
concrete `"\r\n"` instance shows). -/
theorem rope_buffer_from_text_spec :
    (∀ s : List Nat, (RopeBuffer.fromText s).text = s ∧
      (RopeBuffer.fromText s).hasInvalid = false ∧
      (RopeBuffer.fromText s).eol = Eol.Lf) ∧
    (RopeBuffer.fromText [13, 10]).text = [13, 10] :=
  ⟨fun _ => ⟨rfl, rfl, rfl⟩, rfl⟩

set_option maxHeartbeats 1000000 in
/-- C8: every `compose_hex` frame has kind `"hex"`, no cursors, and its
`i`-th line is the formatted hex row `first_row + i`; in particular the
first line for the bytes `FF 00 41` is exactly
`"FF 00 41                                         |..A"`. -/
theorem compose_hex_spec :
    (∀ (bytes : List Nat) (first_row cols rows docv : Nat) (sl sr : String),
      (composeHex bytes first_row cols rows docv sl sr).kind = "hex" ∧
      (composeHex bytes first_row cols rows docv sl sr).cursors = [] ∧
      (∀ i, i < (composeHex bytes first_row cols rows docv sl sr).lines.length →
        (composeHex bytes first_row cols rows docv sl sr).lines.get? i =
          some (Proto.Line.mk (hexLineText bytes (first_row + i)) []))) ∧
    (composeHex [0xFF, 0x00, 0x41] 0 80 24 1 "" "").lines.get? 0 =
      some (Proto.Line.mk "FF 00 41                                         |..A" []) := by
  constructor
  · intro bytes first_row cols rows docv sl sr
    refine ⟨rfl, rfl, ?_⟩
    intro i hi
    simp only [composeHex, List.length_map, List.length_range'] at hi ⊢
    rw [List.get?_map, List.get?_range' _ _ hi]
    simp
  · decide

/-- Witness for C8 applying the general clause at the three-byte input. -/
theorem compose_hex_spec_witness :
    (composeHex [0xFF, 0x00, 0x41] 0 80 24 1 "" "").kind = "hex" ∧
    (composeHex [0xFF, 0x00, 0x41] 0 80 24 1 "" "").lines.get? 0 =
      some (Proto.Line.mk (hexLineText [0xFF, 0x00, 0x41] (0 + 0)) []) :=
  ⟨(compose_hex_spec.1 [0xFF, 0x00, 0x41] 0 80 24 1 "" "").1,
    (compose_hex_spec.1 [0xFF, 0x00, 0x41] 0 80 24 1 "" "").2.2 0 (by decide)⟩

theorem sliceLine_length_le (cols hscroll : Nat) (l : List Nat) :
    (sliceLine cols hscroll l).length ≤ cols := by
  unfold sliceLine
  split
  · simp [List.length_take, List.length_drop]
    omega
  · simp

theorem sliceLine_length_eq (cols hscroll : Nat) (l : List Nat)
    (h : hscroll < l.length) :
    (sliceLine cols hscroll l).length = min (hscroll + cols) l.length - hscroll := by
  unfold sliceLine
  rw [if_pos h]
  simp [List.length_take, List.length_drop]
  omega

theorem length_dropWhile_le (p : Nat → Bool) (l : List Nat) :
    (l.dropWhile p).length ≤ l.length := by
  induction l with
  | nil => simp
  | cons a t ih =>
    rw [List.dropWhile_cons]
    split
    · exact le_trans ih (by simp)
    · simp

theorem dropTrailingWs_length_le (l : List Nat) :
    (dropTrailingWs l).length ≤ l.length := by
  unfold dropTrailingWs
  rw [List.length_reverse]
  calc (l.reverse.dropWhile fun b => b == 32 || b == 9).length
      ≤ l.reverse.length := length_dropWhile_le _ _
    _ = l.length := List.length_reverse l

theorem byteToLineCol_col_le (lines : List (List Nat)) :
    ∀ b, b ≤ totalByteLen lines →
      (byteToLineCol lines b).2 ≤
        ((lines.get? (byteToLineCol lines b).1).getD []).length := by
  induction lines with
  | nil => intro b hb; simp [byteToLineCol]
  | cons l1 rest ih =>
    intro b hb
    cases rest with
    | nil =>
      simp only [totalByteLen] at hb
      simp only [byteToLineCol, List.get?]
      simpa using hb
    | cons l2 rest2 =>
      simp only [totalByteLen] at hb
      by_cases hble : b ≤ l1.length
      · simp only [byteToLineCol, if_pos hble, List.get?]
        simpa using hble
      · simp only [byteToLineCol, if_neg hble, List.get?]
        exact ih (b - l1.length - 1) (by omega)

theorem vis_get (bufLines : List (List Nat)) (firstLine rows cols hscroll line : Nat)
    (raw : List Nat) (h1 : firstLine ≤ line) (h2 : line < firstLine + rows)
    (h3 : bufLines.get? line = some raw) :
    (((bufLines.drop firstLine).take rows).map (sliceLine cols hscroll)).get?
      (line - firstLine) = some (sliceLine cols hscroll raw) := by
  rw [List.get?_map, List.get?_take (by omega), List.get?_drop,
    show firstLine + (line - firstLine) = line from by omega, h3]
  rfl

/-- C7: in every composed frame, each emitted style span (`"sel"`, `"ws"`,
`"err"`) covers a nonempty column range within `[0, cols)` that does not
extend past the visible (horizontally sliced) text of its line, and every
emitted cursor comes from an input cursor whose line lies inside
`[first_line, first_line + rows)`. -/
theorem viewport_compose_spec (bufLines : List (List Nat))
    (firstLine rows cols hscroll : Nat) (cursors : List (Nat × Nat))
    (selection : Option (Nat × Nat))
    (hsel : ∀ s e, selection = some (s, e) → e ≤ totalByteLen bufLines) :
    (∀ sp ∈ (compose bufLines firstLine rows cols hscroll cursors selection).spans,
      sp.startCol < sp.endCol ∧ sp.endCol ≤ cols ∧
      ∃ vl, (compose bufLines firstLine rows cols hscroll cursors selection).lines.get?
        sp.row = some vl ∧ sp.endCol ≤ vl.length) ∧
    (∀ cur ∈ (compose bufLines firstLine rows cols hscroll cursors selection).cursors,
      ∃ lc ∈ cursors, firstLine ≤ lc.1 ∧ lc.1 < firstLine + rows ∧
        cur.row = lc.1 - firstLine ∧ cur.col = lc.2 - hscroll) := by
  constructor
  · intro sp hsp
    simp only [compose] at hsp ⊢
    rcases List.mem_append.mp hsp with hws | hsel2
    · -- "ws" / "err" spans of a visible line
      obtain ⟨l0, hl0, hmem⟩ := List.mem_flatten.mp hws
      obtain ⟨p, hp, hpe⟩ := List.mem_map.mp hl0
      obtain ⟨row, line⟩ := p
      subst hpe
      have hget : (((bufLines.drop firstLine).take rows).map
          (sliceLine cols hscroll)).get? row = some line :=
        List.mk_mem_enum_iff_get?.mp hp
      have hlinemem : line ∈ ((bufLines.drop firstLine).take rows).map
          (sliceLine cols hscroll) := List.get?_mem hget
      obtain ⟨raw, -, hraweq⟩ := List.mem_map.mp hlinemem
      have hlen : line.length ≤ cols := by
        rw [← hraweq]
        exact sliceLine_length_le cols hscroll raw
      simp only [lineSpans] at hmem
      rcases List.mem_append.mp hmem with hw | he
      · by_cases hcond : (dropTrailingWs line).length < line.length
        · rw [if_pos hcond] at hw
          simp only [List.mem_singleton] at hw
          subst hw
          exact ⟨hcond, hlen, line, hget, le_rfl⟩
        · rw [if_neg hcond] at hw
          simp at hw
      · obtain ⟨q, hq, hqf⟩ := List.mem_filterMap.mp he
        by_cases hq2 : q.2 = 0xFFFD
        · rw [if_pos hq2] at hqf
          simp only [Option.some.injEq] at hqf
          subst hqf
          have hql : q.1 < (utf8DecodeLossy line).length := List.fst_lt_of_mem_enum hq
          have hll := utf8DecodeLossy_length_le line
          refine ⟨?_, ?_, line, hget, ?_⟩ <;> simp <;> omega
        · rw [if_neg hq2] at hqf
          simp at hqf
    · -- "sel" spans
      match selection, hsel2 with
      | none, hsel2 => exact absurd hsel2 (List.not_mem_nil sp)
      | some (s, e), hsel2 =>
      obtain ⟨line, hline, hf⟩ := List.mem_filterMap.mp hsel2
      by_cases hvp : line < firstLine ∨ firstLine + rows ≤ line
      · rw [if_pos hvp] at hf
        simp at hf
      · rw [if_neg hvp] at hf
        set stv := (if line = (byteToLineCol bufLines s).1
          then (byteToLineCol bufLines s).2 else 0) with hstv
        set env := (if line = (byteToLineCol bufLines e).1
          then (byteToLineCol bufLines e).2
          else ((bufLines.get? line).getD []).length) with henv
        by_cases hsten : stv < env
        · rw [if_pos hsten] at hf
          by_cases hadj : 0 < env - hscroll ∧ stv - hscroll < cols
          · rw [if_pos hadj] at hf
            simp only [Option.some.injEq] at hf
            subst hf
            -- the end column is bounded by the raw line length
            have hen_le : env ≤ ((bufLines.get? line).getD []).length := by
              rw [henv]
              split
              · next hle =>
                rw [hle]
                exact byteToLineCol_col_le bufLines e (hsel s e rfl)
              · exact le_rfl
            have hforward : 0 < ((bufLines.get? line).getD []).length := by omega
            cases hrawo : bufLines.get? line with
            | none => rw [hrawo] at hforward; simp at hforward
            | some raw =>
              rw [hrawo] at hen_le
              simp only [Option.getD_some] at hen_le
              have hvl := vis_get bufLines firstLine rows cols hscroll line raw
                (by omega) (by omega) hrawo
              refine ⟨?_, ?_, sliceLine cols hscroll raw, hvl, ?_⟩
              · show min (stv - hscroll) cols < min (env - hscroll) cols
                omega
              · show min (env - hscroll) cols ≤ cols
                omega
              · show min (env - hscroll) cols ≤ (sliceLine cols hscroll raw).length
                have hh : hscroll < raw.length := by omega
                rw [sliceLine_length_eq cols hscroll raw hh]
                omega
          · rw [if_neg hadj] at hf
            simp at hf
        · rw [if_neg hsten] at hf
          simp at hf
  · intro cur hcur
    simp only [compose] at hcur
    obtain ⟨p, hp, hf⟩ := List.mem_filterMap.mp hcur
    by_cases ha : p.1 < firstLine ∨ firstLine + rows ≤ p.1
    · rw [if_pos ha] at hf
      simp at hf
    · rw [if_neg ha] at hf
      by_cases hb : p.2 < hscroll ∨ hscroll + cols ≤ p.2
      · rw [if_pos hb] at hf
        simp at hf
      · rw [if_neg hb] at hf
        simp only [Option.some.injEq] at hf
        subst hf
        exact ⟨p, hp, by omega, by omega, rfl, rfl⟩

/-- Witness for C7 at the two-line buffer of the `compose_basic` test with a
selection and one cursor. -/
theorem viewport_compose_spec_witness :
    (∀ sp ∈ (compose [[104, 101, 108, 108, 111, 32, 32], [119, 111, 114, 108, 100], []]
        0 2 80 0 [(0, 1)] (some (1, 4))).spans,
      sp.startCol < sp.endCol ∧ sp.endCol ≤ 80 ∧
      ∃ vl, (compose [[104, 101, 108, 108, 111, 32, 32], [119, 111, 114, 108, 100], []]
        0 2 80 0 [(0, 1)] (some (1, 4))).lines.get? sp.row = some vl ∧
        sp.endCol ≤ vl.length) ∧
    (∀ cur ∈ (compose [[104, 101, 108, 108, 111, 32, 32], [119, 111, 114, 108, 100], []]
        0 2 80 0 [(0, 1)] (some (1, 4))).cursors,
      ∃ lc ∈ [((0 : Nat), (1 : Nat))], 0 ≤ lc.1 ∧ lc.1 < 0 + 2 ∧
        cur.row = lc.1 - 0 ∧ cur.col = lc.2 - 0) :=
  viewport_compose_spec [[104, 101, 108, 108, 111, 32, 32], [119, 111, 114, 108, 100], []]
    0 2 80 0 [(0, 1)] (some (1, 4))
    (fun s e h => by
      simp only [Option.some.injEq, Prod.mk.injEq] at h
      obtain ⟨h1, h2⟩ := h
      subst h2
      decide)

end Ghostwriter
